import Mathlib

/-!
Verification development for the business-card extraction core
(`llm_manager.py` / `bot.py`): the five field validators, the
language-model-backed structured extractor `extract_with_llm`, and the
OCR orchestration `run_ocr_with_timeout`.

Strings are modelled as `List Char` (`Str`).  The Python regular
expressions used by the source (`PHONE_REGEX`, `EMAIL_REGEX`, and the
inline name / company / description patterns) are embedded as dedicated
backtracking matchers over `Str` that reproduce Python `re` semantics
(leftmost scan, greedy / lazy repetition, ASCII word boundaries) for the
specific patterns of the source.  Python-level exceptions are modelled
with `Option`: `none` means the corresponding Python code raises.
-/

set_option maxRecDepth 4000

abbrev Str := List Char

/-- The sentinel string `"N/A"` used throughout `llm_manager.py`. -/
def nA : Str := ('N' :: '/' :: 'A' :: [])

/-- Python `str.isspace` / regex `\s` for the ASCII range. -/
def pyIsSpace (c : Char) : Bool :=
  c = ' ' || c = '\t' || c = '\n' || c = '\r' || c = '\x0B' || c = '\x0C'

/-- Characters of the class `[\s.-]` in `PHONE_REGEX`. -/
def isSep (c : Char) : Bool :=
  pyIsSpace c || c = '.' || c = '-'

/-- Regex `\w` (ASCII): letters, digits and underscore. -/
def isWordChar (c : Char) : Bool :=
  c.isAlpha || c.isDigit || c = '_'

/-- `re.sub(r'[^\d]', '', s)`: keep only the digits of `s`. -/
def digitsOf (s : Str) : Str := s.filter Char.isDigit

/-- `re.sub(r'[()]', '', s)`: drop parentheses. -/
def stripParens (s : Str) : Str := s.filter (fun c => !(c = '(' || c = ')'))

/-- Python `str.strip()` (ASCII whitespace). -/
def pyStrip (s : Str) : Str :=
  ((s.dropWhile pyIsSpace).reverse.dropWhile pyIsSpace).reverse

/-- Python `str.lower()` (ASCII). -/
def pyLower (s : Str) : Str := s.map Char.toLower

/-- Worker for `pyTitle`: the flag records whether the previous character
was a cased (alphabetic) one. -/
def pyTitleGo : Bool → Str → Str
  | _, [] => []
  | prevAlpha, c :: rest =>
    (if c.isAlpha then (if prevAlpha then c.toLower else c.toUpper) else c)
      :: pyTitleGo c.isAlpha rest

/-- Python `str.title()` (ASCII): uppercase a letter that follows a
non-letter, lowercase a letter that follows a letter. -/
def pyTitle (s : Str) : Str := pyTitleGo false s

theorem dropWhile_len_le (p : Char → Bool) : ∀ s : Str, (s.dropWhile p).length ≤ s.length := by
  intro s
  induction s with
  | nil => simp
  | cons c rest ih =>
    simp only [List.dropWhile]
    split
    · simpa using Nat.le_succ_of_le ih
    · simp

/-- Fuel-based worker for `collapseWs`; the fuel (the input length
suffices, since every step strictly shortens the input) only serves to
make the recursion structural, so that the kernel can evaluate it. -/
def collapseWsF : Nat → Str → Str
  | 0, _ => []
  | _ + 1, [] => []
  | fuel + 1, c :: rest =>
    if pyIsSpace c then ' ' :: collapseWsF fuel (rest.dropWhile pyIsSpace)
    else c :: collapseWsF fuel rest

/-- `re.sub(r'\s+', ' ', s)`: collapse every whitespace run to one space. -/
def collapseWs (s : Str) : Str := collapseWsF s.length s

/-- Python `str.split(sep)` for a one-character separator. -/
def splitOnChar (sep : Char) : Str → List Str
  | [] => [[]]
  | c :: rest =>
    let r := splitOnChar sep rest
    if c = sep then [] :: r
    else
      match r with
      | h :: t => (c :: h) :: t
      | [] => [[c]]

/-- Greedy span: longest prefix whose characters satisfy `p`, plus the rest. -/
def spanP (p : Char → Bool) : Str → Str × Str
  | [] => ([], [])
  | c :: rest =>
    if p c then
      let sp := spanP p rest
      (c :: sp.1, sp.2)
    else ([], c :: rest)

theorem spanP_snd_le (p : Char → Bool) : ∀ s : Str, (spanP p s).2.length ≤ s.length := by
  intro s
  induction s with
  | nil => simp [spanP]
  | cons c rest ih =>
    simp only [spanP]
    split
    · simpa using Nat.le_succ_of_le ih
    · simp

theorem spanP_fst_all (p : Char → Bool) : ∀ s : Str, ∀ x ∈ (spanP p s).1, p x = true := by
  intro s
  induction s with
  | nil => simp [spanP]
  | cons c rest ih =>
    simp only [spanP]
    split
    · next h =>
      intro x hx
      rcases List.mem_cons.1 hx with rfl | hx
      · exact h
      · exact ih x hx
    · simp

theorem spanP_append_eq (p : Char → Bool) (a b : Str)
    (ha : ∀ x ∈ a, p x = true)
    (hb : b = [] ∨ ∃ c cs, b = c :: cs ∧ p c = false) :
    spanP p (a ++ b) = (a, b) := by
  induction a with
  | nil =>
    rcases hb with rfl | ⟨c, cs, rfl, hc⟩
    · simp [spanP]
    · simp [spanP, hc]
  | cons x xs ih =>
    have hx : p x = true := ha x (List.mem_cons_self x xs)
    have ih' := ih (fun y hy => ha y (List.mem_cons_of_mem x hy))
    simp [spanP, hx, ih']

/-! ### `clean_markdown`: the two `re.sub` passes stripping `**x**` / `*x*` -/

/-- Lazy search for the closing `**` of a bold span; `.` does not match
newline, so a `'\n'` aborts the attempt.  Returns the span body and the
text after the closing delimiter. -/
def findClose2 : Str → Str → Option (Str × Str)
  | [], _ => none
  | c :: rest, acc =>
    if c = '*' ∧ rest.head? = some '*' then some (acc.reverse, rest.tail)
    else if c = '\n' then none
    else findClose2 rest (c :: acc)

theorem findClose2_le : ∀ (s acc mid aft : Str),
    findClose2 s acc = some (mid, aft) → aft.length ≤ s.length := by
  intro s
  induction s with
  | nil => intro acc mid aft h; simp [findClose2] at h
  | cons c rest ih =>
    intro acc mid aft h
    simp only [findClose2] at h
    split at h
    · obtain ⟨rfl, rfl⟩ : List.reverse acc = mid ∧ rest.tail = aft := by simpa using h
      have : rest.tail.length = rest.length - 1 := List.length_tail rest
      simp only [List.length_cons]
      omega
    · split at h
      · simp at h
      · have := ih (c :: acc) mid aft h
        simp only [List.length_cons]
        omega

/-- Lazy search for the closing `*` of an italic span. -/
def findClose1 : Str → Str → Option (Str × Str)
  | [], _ => none
  | c :: rest, acc =>
    if c = '*' then some (acc.reverse, rest)
    else if c = '\n' then none
    else findClose1 rest (c :: acc)

theorem findClose1_le : ∀ (s acc mid aft : Str),
    findClose1 s acc = some (mid, aft) → aft.length ≤ s.length := by
  intro s
  induction s with
  | nil => intro acc mid aft h; simp [findClose1] at h
  | cons c rest ih =>
    intro acc mid aft h
    simp only [findClose1] at h
    split at h
    · obtain ⟨rfl, rfl⟩ : List.reverse acc = mid ∧ rest = aft := by simpa using h
      simp only [List.length_cons]
      omega
    · split at h
      · simp at h
      · have := ih (c :: acc) mid aft h
        simp only [List.length_cons]
        omega

/-- Fuel-based worker for `sub2` (fuel: see `collapseWsF`). -/
def sub2F : Nat → Str → Str
  | 0, _ => []
  | _ + 1, [] => []
  | fuel + 1, c :: rest =>
    if c = '*' ∧ rest.head? = some '*' then
      match findClose2 rest.tail [] with
      | some (mid, aft) => mid ++ sub2F fuel aft
      | none => c :: sub2F fuel rest
    else c :: sub2F fuel rest

/-- `re.sub(r'\*\*(.*?)\*\*', r'\1', text)`: strip bold wrappers. -/
def sub2 (s : Str) : Str := sub2F s.length s

/-- Fuel-based worker for `sub1` (fuel: see `collapseWsF`). -/
def sub1F : Nat → Str → Str
  | 0, _ => []
  | _ + 1, [] => []
  | fuel + 1, c :: rest =>
    if c = '*' then
      match findClose1 rest [] with
      | some (mid, aft) => mid ++ sub1F fuel aft
      | none => c :: sub1F fuel rest
    else c :: sub1F fuel rest

/-- `re.sub(r'\*(.*?)\*', r'\1', text)`: strip italic wrappers. -/
def sub1 (s : Str) : Str := sub1F s.length s

/-- `clean_markdown` from `llm_manager.py`: empty and `"N/A"` are returned
unchanged; otherwise strip bold, then italic, then whitespace. -/
def clean_markdown (t : Str) : Str :=
  if t = [] ∨ t = nA then t else pyStrip (sub1 (sub2 t))

/-! ### `PHONE_REGEX = (?:\+|\b)\d+(?:[\s.-]\d+)*`

A dedicated matcher with Python `re` semantics for this pattern.  All
repetitions here are effectively possessive: `\d+` is followed by a unit
that cannot consume a digit and `(?:[\s.-]\d+)*` has no trailing
context, so maximal munch is exact. -/

/-- Fuel-based worker for `phoneGroups` (fuel: see `collapseWsF`). -/
def phoneGroupsF : Nat → Str → Str × Str
  | 0, s => ([], s)
  | _ + 1, [] => ([], [])
  | fuel + 1, c :: rest =>
    if isSep c then
      let sp := spanP Char.isDigit rest
      if sp.1 = [] then ([], c :: rest)
      else
        let pg := phoneGroupsF fuel sp.2
        (c :: sp.1 ++ pg.1, pg.2)
    else ([], c :: rest)

/-- Consume `(?:[\s.-]\d+)*` greedily; returns the consumed prefix and
the rest. -/
def phoneGroups (s : Str) : Str × Str := phoneGroupsF s.length s

/-- Match `PHONE_REGEX` at the start of `s`; `prevWord` tells whether the
character before `s` is a word character (for `\b`).  Returns the match
and the remaining input. -/
def phoneMatchHere (prevWord : Bool) (s : Str) : Option (Str × Str) :=
  match s with
  | [] => none
  | c :: rest =>
    if c = '+' then
      let sp := spanP Char.isDigit rest
      if sp.1 = [] then none
      else
        let pg := phoneGroups sp.2
        some ('+' :: sp.1 ++ pg.1, pg.2)
    else if c.isDigit && !prevWord then
      let sp := spanP Char.isDigit (c :: rest)
      let pg := phoneGroups sp.2
      some (sp.1 ++ pg.1, pg.2)
    else none

/-- Generic left-to-right non-overlapping scan (the semantics of
`re.finditer`): try to match at every position, resume after each match.
`prevWord` tracks the character before the current position for `\b`.
The fuel only bounds the recursion; `scanAllWith` supplies enough. -/
def scanWithF (f : Bool → Str → Option (Str × Str)) : Nat → Bool → Str → List Str
  | 0, _, _ => []
  | _ + 1, _, [] => []
  | fuel + 1, prev, c :: rest =>
    match f prev (c :: rest) with
    | some (m, fin) => m :: scanWithF f fuel (m.getLast?.elim prev isWordChar) fin
    | none => scanWithF f fuel (isWordChar c) rest

def scanAllWith (f : Bool → Str → Option (Str × Str)) (s : Str) : List Str :=
  scanWithF f (s.length + 1) false s

/-- `[m.group(0) for m in PHONE_REGEX.finditer(s)]`. -/
def phoneFindall (s : Str) : List Str := scanAllWith phoneMatchHere s

/-- `PHONE_REGEX.search(s)`, as the matched text. -/
def phoneSearch (s : Str) : Option Str := (phoneFindall s).head?

/-- Python `max(l, key=...)` keeps the first maximal element; here the key
is the number of digits, and the list is `h :: t`. -/
def maxByDigits (h : Str) (t : List Str) : Str :=
  t.foldl (fun acc x => if (digitsOf acc).length < (digitsOf x).length then x else acc) h

/-- The branch of `validate_phone` that formats a `PHONE_REGEX` match of
the candidate (source lines 76-100): digit count gate, country-code
inference, and country-specific grouping. -/
def phoneFormat (matched_phone : Str) : Option Str :=
  let digits := digitsOf matched_phone
  if digits.length < 7 then some nA
  else
    let countryO : Option Str :=
      if digits.take 2 = ('9' :: '1' :: []) then some ('9' :: '1' :: [])
      else if digits.take 1 = ('1' :: []) then some ('1' :: [])
      else
        match digits.head? with
        | none => none
        | some d0 =>
          let clen : Nat :=
            if d0 ≠ '1' ∧ d0 ≠ '9' then 1
            else if digits.take 2 = ('9' :: '1' :: []) then 2
            else if 10 < digits.length then 3
            else 1
          some (digits.take clen)
    match countryO with
    | none => none
    | some country =>
      let rest := digits.drop country.length
      if rest.length ≠ 10 then some (('+' :: country) ++ (' ' :: rest))
      else if country = ('9' :: '1' :: []) then
        some (('+' :: '9' :: '1' :: ' ' :: []) ++ rest.take 2 ++ (' ' :: [])
          ++ (rest.drop 2).take 4 ++ (' ' :: []) ++ rest.drop 6)
      else if country = ('1' :: []) then
        some (('+' :: '1' :: '-' :: []) ++ rest.take 3 ++ ('-' :: [])
          ++ (rest.drop 3).take 3 ++ ('-' :: []) ++ rest.drop 6)
      else
        some (('+' :: country) ++ (' ' :: []) ++ rest.take 3 ++ (' ' :: [])
          ++ (rest.drop 3).take 3 ++ (' ' :: []) ++ rest.drop 6)

/-- `validate_phone` from `llm_manager.py`, with an explicit recursion
budget: the Python function calls itself once when it falls back to
searching `raw_text`, and `none` models a Python exception (in
particular exhaustion of the recursion budget).  `validate_phone` below
instantiates the budget with 2, which `validate_phone_go 2` never
exhausts (see the termination theorem for C9). -/
def validate_phone_go : Nat → Str → Str → Option Str
  | 0, _, _ => none
  | fuel + 1, phone0, raw_text =>
    let phone := stripParens phone0
    match phoneSearch phone with
    | some matched_phone => phoneFormat matched_phone
    | none =>
      let raw_clean := stripParens raw_text
      let candidates := phoneFindall raw_clean
      let valid := candidates.filter (fun c => decide (7 ≤ (digitsOf c).length))
      match valid with
      | [] => some nA
      | v :: vs =>
        let with_plus := (v :: vs).filter (fun c => c.head? = some '+')
        match with_plus with
        | [] => validate_phone_go fuel (maxByDigits v vs) raw_text
        | w :: ws => validate_phone_go fuel (maxByDigits w ws) raw_text

def validate_phone (phone raw_text : Str) : Option Str :=
  validate_phone_go 2 phone raw_text

/-! ### Name / description pattern `\b[A-Z][a-z]+(?:\s[A-Z][a-z]+){1,k}\b`

`validate_name` uses `k = 2` (2-3 words), `validate_description` uses
`k = 3` (2-4 words).  After a maximal `[A-Z][a-z]+` word, shortening the
`[a-z]+` run always leaves a lowercase letter next, which satisfies
neither `\s` (next repetition) nor `\b`; so only the repetition count
backtracks, greedily from the maximum down to 1. -/

/-- `[A-Z][a-z]+` with maximal munch. -/
def capWord (s : Str) : Option (Str × Str) :=
  match s with
  | [] => none
  | c :: rest =>
    if c.isUpper then
      let sp := spanP Char.isLower rest
      if sp.1 = [] then none else some (c :: sp.1, sp.2)
    else none

/-- Greedy checkpoints for `(?:\s[A-Z][a-z]+){1..max}`: entry `i` is the
text consumed by the first `i+1` repetitions, with the rest. -/
def repChain : Nat → Str → List (Str × Str)
  | 0, _ => []
  | maxE + 1, s =>
    match s with
    | [] => []
    | c :: rest =>
      if pyIsSpace c then
        match capWord rest with
        | some (w, r) =>
          (c :: w, r) :: (repChain maxE r).map (fun q => (c :: w ++ q.1, q.2))
        | none => []
      else []

/-- Does the remaining input start with a word character (so that `\b`
after a word character fails there)? -/
def headIsWord (s : Str) : Bool :=
  match s.head? with
  | some c => isWordChar c
  | none => false

/-- Match `\b[A-Z][a-z]+(?:\s[A-Z][a-z]+){1,maxE}\b` at the start of the
input: greedy on the repetition count, backtracking until the trailing
`\b` holds. -/
def nameDescMatchHere (maxE : Nat) (prevWord : Bool) (s : Str) : Option (Str × Str) :=
  if prevWord then none
  else
    match capWord s with
    | none => none
    | some (w1, r1) =>
      match (repChain maxE r1).reverse.find? (fun q => !headIsWord q.2) with
      | some (m, fin) => some (w1 ++ m, fin)
      | none => none

/-- `re.findall(r'\b[A-Z][a-z]+(?:\s[A-Z][a-z]+){1,2}\b', s)` (names). -/
def nameFindall (s : Str) : List Str := scanAllWith (nameDescMatchHere 2) s

/-- `re.findall(r'\b[A-Z][a-z]+(?:\s[A-Z][a-z]+){1,3}\b', s)` (titles). -/
def descFindall (s : Str) : List Str := scanAllWith (nameDescMatchHere 3) s

/-! ### Company pattern `\b[A-Z][a-zA-Z\s&.-]+(?:Pvt\.?\s*Ltd\.?|Inc\.?|LLC)?\b` -/

/-- The class `[a-zA-Z\s&.-]`. -/
def companyClass (c : Char) : Bool :=
  c.isAlpha || pyIsSpace c || c = '&' || c = '.' || c = '-'

/-- Strip a literal prefix. -/
def litChomp : List Char → Str → Option Str
  | [], s => some s
  | _ :: _, [] => none
  | c :: cs, d :: rest => if c = d then litChomp cs rest else none

/-- Candidate continuations (consumed suffix text, its last character,
rest) for `\.?` after a literal, greedy: with the dot first. -/
def dotVariants (lastC : Char) (s : Str) : List (Str × Char × Str) :=
  (match s with
   | '.' :: r => [(('.' :: []), '.', r)]
   | _ => []) ++ [(([] : Str), lastC, s)]

/-- Candidate continuations for `\s*`, greedy: longest run first.
`n` counts the spaces still usable from the front of `s`. -/
def wsVariants : Nat → Char → Str → List (Str × Char × Str)
  | 0, lastC, s => [(([] : Str), lastC, s)]
  | n + 1, lastC, s =>
    (match s.take (n + 1) with
     | [] => []
     | c :: cs =>
       match (c :: cs).getLast? with
       | some lc => [((c :: cs), lc, s.drop (n + 1))]
       | none => []) ++ wsVariants n lastC s

/-- All continuations of the optional group
`(?:Pvt\.?\s*Ltd\.?|Inc\.?|LLC)?` starting at `tail`, in the order the
Python regex engine tries them; the final entry is the empty match. -/
def suffixCandidates (lastC : Char) (tail : Str) : List (Str × Char × Str) :=
  (match litChomp ('P' :: 'v' :: 't' :: []) tail with
   | some t1 =>
     (dotVariants 't' t1).flatMap (fun dv =>
       let ws := (spanP pyIsSpace dv.2.2).1
       (wsVariants ws.length dv.2.1 dv.2.2).flatMap (fun wv =>
         match litChomp ('L' :: 't' :: 'd' :: []) wv.2.2 with
         | some t3 =>
           (dotVariants 'd' t3).map (fun dv2 =>
             (('P' :: 'v' :: 't' :: []) ++ dv.1 ++ wv.1 ++ ('L' :: 't' :: 'd' :: []) ++ dv2.1,
              dv2.2.1, dv2.2.2))
         | none => []))
   | none => []) ++
  (match litChomp ('I' :: 'n' :: 'c' :: []) tail with
   | some t1 =>
     (dotVariants 'c' t1).map (fun dv =>
       (('I' :: 'n' :: 'c' :: []) ++ dv.1, dv.2.1, dv.2.2))
   | none => []) ++
  (match litChomp ('L' :: 'L' :: 'C' :: []) tail with
   | some t1 => [(('L' :: 'L' :: 'C' :: []), 'C', t1)]
   | none => []) ++
  [(([] : Str), lastC, tail)]

/-- Try the optional suffix group followed by `\b`, in engine order. -/
def suffixTry (lastC : Char) (tail : Str) : Option (Str × Str) :=
  match (suffixCandidates lastC tail).find?
      (fun q => xor (isWordChar q.2.1) (headIsWord q.2.2)) with
  | some (suf, _, fin) => some (suf, fin)
  | none => none

/-- Backtrack the `[a-zA-Z\s&.-]+` run from `k` characters down to 1,
trying the optional suffix and the final `\b` at each length. -/
def companyTryK (c0 : Char) (body r1 : Str) : Nat → Option (Str × Str)
  | 0 => none
  | k + 1 =>
    let consumed := body.take (k + 1)
    let tail := body.drop (k + 1) ++ r1
    match consumed.getLast? with
    | none => none
    | some lastC =>
      match suffixTry lastC tail with
      | some (suf, fin) => some (c0 :: consumed ++ suf, fin)
      | none => companyTryK c0 body r1 k

/-- Match the company pattern at the start of the input. -/
def companyMatchHere (prevWord : Bool) (s : Str) : Option (Str × Str) :=
  if prevWord then none
  else
    match s with
    | [] => none
    | c :: rest =>
      if c.isUpper then
        let sp := spanP companyClass rest
        if sp.1 = [] then none
        else companyTryK c sp.1 sp.2 sp.1.length
      else none

/-- `re.findall(r'\b[A-Z][a-zA-Z\s&.-]+(?:Pvt\.?\s*Ltd\.?|Inc\.?|LLC)?\b', s)`. -/
def companyFindall (s : Str) : List Str := scanAllWith companyMatchHere s

/-! ### `EMAIL_REGEX = \b[A-Za-z0-9._%+-]+@[A-Za-z0-9.-]+\.[A-Z|a-z]{2,}\b`

(The `|` inside the final class is a literal pipe character.) -/

def localClass (c : Char) : Bool :=
  c.isAlpha || c.isDigit || c = '.' || c = '_' || c = '%' || c = '+' || c = '-'

def domainClass (c : Char) : Bool :=
  c.isAlpha || c.isDigit || c = '.' || c = '-'

def tldClass (c : Char) : Bool :=
  c.isAlpha || c = '|'

/-- Backtrack the `[A-Z|a-z]{2,}` run from `t` characters down to 2,
requiring the final `\b`.  `tl` is the maximal run, `r5` what follows. -/
def emailTldTry (tl r5 : Str) : Nat → Option (Str × Str)
  | 0 => none
  | 1 => none
  | t + 2 =>
    let taken := tl.take (t + 2)
    let fin := tl.drop (t + 2) ++ r5
    match taken.getLast? with
    | none => none
    | some lc =>
      if xor (isWordChar lc) (headIsWord fin) then some (taken, fin)
      else emailTldTry tl r5 (t + 1)

/-- Backtrack the domain run from `k` characters down to 1: after `k`
domain characters there must be a literal `'.'` and then the TLD. -/
def emailDomainTry (dom r3 : Str) : Nat → Option (Str × Str)
  | 0 => none
  | k + 1 =>
    (match dom.drop (k + 1) ++ r3 with
     | '.' :: r4 =>
       let sp := spanP tldClass r4
       match emailTldTry sp.1 sp.2 sp.1.length with
       | some (tld, fin) => some (dom.take (k + 1) ++ '.' :: tld, fin)
       | none => none
     | _ => none).orElse (fun _ => emailDomainTry dom r3 k)

/-- Match `EMAIL_REGEX` at the start of the input. -/
def emailMatchHere (prevWord : Bool) (s : Str) : Option (Str × Str) :=
  match s with
  | [] => none
  | c :: _ =>
    if xor prevWord (isWordChar c) then
      let spl := spanP localClass s
      if spl.1 = [] then none
      else
        match spl.2 with
        | '@' :: r2 =>
          let spd := spanP domainClass r2
          match emailDomainTry spd.1 spd.2 spd.1.length with
          | some (domtld, fin) => some (spl.1 ++ '@' :: domtld, fin)
          | none => none
        | _ => none
    else none

/-- `EMAIL_REGEX.search(s)`, as the matched text. -/
def emailSearch (s : Str) : Option Str := (scanAllWith emailMatchHere s).head?

/-- `EMAIL_REGEX.match(email)`: anchored at position 0 only. -/
def emailMatch0 (s : Str) : Bool := (emailMatchHere false s).isSome

/-! ### The five field validators (Python-exception = `none`) -/

/-- `validate_name` from `llm_manager.py`. -/
def validate_name (name raw_text : Str) : Option Str :=
  if name = nA then
    let candidates := nameFindall raw_text
    some (candidates.headD nA)
  else some (pyStrip (pyTitle name))

/-- `validate_company` from `llm_manager.py`.  `split('@')[1]` is an
indexing operation, modelled with `[1]?` (`none` = `IndexError`). -/
def validate_company (company raw_text : Str) : Option Str :=
  if company = nA then
    match emailSearch raw_text with
    | some m =>
      match (splitOnChar '@' m)[1]? with
      | some domain =>
        some (pyTitle (domain.map (fun c => if c = '.' then ' ' else c)))
      | none => none
    | none =>
      let candidates := companyFindall raw_text
      some (candidates.headD nA)
  else some (pyTitle (collapseWs company))

/-- `validate_description` from `llm_manager.py`. -/
def validate_description (desc raw_text : Str) : Option Str :=
  if desc = nA then
    let candidates := descFindall raw_text
    if 2 ≤ candidates.length then candidates[1]? else some nA
  else some (pyStrip (pyTitle desc))

/-- `validate_email` from `llm_manager.py`. -/
def validate_email (email raw_text : Str) : Option Str :=
  if emailMatch0 email then some (pyStrip (pyLower email))
  else
    match emailSearch raw_text with
    | some m => some (pyLower m)
    | none => some nA

/-! ### `extract_with_llm`

The transport call (`groq` client) and `json.loads` are external
collaborators; an attempt's outcome is modelled after decoding:
`transportError` (any exception from the API call), `unparseable` (a
response that does not start with `{` / end with `}`, or fails JSON
decoding), or `parsed o` (a decoded JSON object).  JSON values are
classified by how the Python code treats them: strings (`jstr`), `null`
(falsy, survives `clean_markdown`, breaks the validators), other falsy
values such as `0` / `false` / `[]` (same), and truthy non-strings, on
which `re.sub` inside `clean_markdown` raises `TypeError`. -/

inductive JVal where
  | jstr (s : Str)
  | jnull
  | jfalsy
  | jtruthy
deriving DecidableEq

/-- A decoded JSON object: association list with distinct keys (as
produced by `json.loads`), insertion-ordered like a Python dict. -/
abbrev Obj := List (Str × JVal)

/-- `data.get(k)` / `data[k]` lookup. -/
def getKey (o : Obj) (k : Str) : Option JVal :=
  (o.find? (fun p => p.1 = k)).map Prod.snd

/-- `data[k] = v`: replace in place, or append a new key (dict order). -/
def setKey (o : Obj) (k : Str) (v : JVal) : Obj :=
  match o with
  | [] => [(k, v)]
  | (k2, v2) :: t => if k2 = k then (k2, v) :: t else (k2, v2) :: setKey t k v

/-- `clean_markdown` applied to a JSON value (`for key in data: ...`):
strings are cleaned, falsy values pass through unchanged, truthy
non-strings make `re.sub` raise `TypeError`. -/
def cleanVal : JVal → Option JVal
  | JVal.jstr s => some (JVal.jstr (clean_markdown s))
  | JVal.jnull => some JVal.jnull
  | JVal.jfalsy => some JVal.jfalsy
  | JVal.jtruthy => none

/-- The cleaning loop over every key of the response object. -/
def cleanAll : Obj → Option Obj
  | [] => some []
  | (k, v) :: t => do
    let v2 ← cleanVal v
    let t2 ← cleanAll t
    some ((k, v2) :: t2)

/-- `data.get(key, 'N/A')` as the argument of a validator: a missing key
defaults to the string `"N/A"`; a non-string value makes the validator
raise (`.title()` / `re` on a non-string). -/
def getStr (o : Obj) (k : Str) : Option Str :=
  match getKey o k with
  | some (JVal.jstr s) => some s
  | some _ => none
  | none => some nA

def keyName : Str := ("name".toList)
def keyCompany : Str := ("company".toList)
def keyDescription : Str := ("description".toList)
def keyPhone : Str := ("phone".toList)
def keyEmail : Str := ("email".toList)

/-- Processing of one successfully decoded response object: clean every
field, then force the five fields through their validators in source
order.  `none` models an exception inside the `try` block (and hence a
retry). -/
def processParsed (o : Obj) (raw : Str) : Option Obj := do
  let d0 ← cleanAll o
  let s1 ← getStr d0 keyName
  let v1 ← validate_name s1 raw
  let d1 := setKey d0 keyName (JVal.jstr v1)
  let s2 ← getStr d1 keyCompany
  let v2 ← validate_company s2 raw
  let d2 := setKey d1 keyCompany (JVal.jstr v2)
  let s3 ← getStr d2 keyDescription
  let v3 ← validate_description s3 raw
  let d3 := setKey d2 keyDescription (JVal.jstr v3)
  let s4 ← getStr d3 keyPhone
  let v4 ← validate_phone s4 raw
  let d4 := setKey d3 keyPhone (JVal.jstr v4)
  let s5 ← getStr d4 keyEmail
  let v5 ← validate_email s5 raw
  some (setKey d4 keyEmail (JVal.jstr v5))

/-- Outcome of one model attempt (see section comment). -/
inductive Attempt where
  | transportError
  | unparseable
  | parsed (o : Obj)

/-- What one loop iteration produces: `some record` returns from
`extract_with_llm`, `none` falls through to the next retry. -/
def attemptResult (a : Attempt) (raw : Str) : Option Obj :=
  match a with
  | Attempt.parsed o => processParsed o raw
  | _ => none

/-- The regex-only fallback record built after retry exhaustion
(source line 185); a validator exception propagates out. -/
def fallbackRecord (raw : Str) : Option Obj := do
  let n ← validate_name nA raw
  let c ← validate_company nA raw
  let d ← validate_description nA raw
  let p ← validate_phone nA raw
  let e ← validate_email nA raw
  some [(keyName, JVal.jstr n), (keyCompany, JVal.jstr c),
        (keyDescription, JVal.jstr d), (keyPhone, JVal.jstr p),
        (keyEmail, JVal.jstr e)]

/-- The `for attempt in range(max_retries)` loop; `i` is the index of the
next attempt. -/
def goAttempts (raw : Str) (attempts : Nat → Attempt) : Nat → Nat → Option Obj
  | 0, _ => fallbackRecord raw
  | n + 1, i =>
    match attemptResult (attempts i) raw with
    | some r => some r
    | none => goAttempts raw attempts n (i + 1)

/-- The record returned when `text` is empty or no client is configured. -/
def defaultRecord : Obj :=
  [(keyName, JVal.jstr nA), (keyCompany, JVal.jstr nA),
   (keyDescription, JVal.jstr nA), (keyPhone, JVal.jstr nA),
   (keyEmail, JVal.jstr nA)]

/-- `extract_with_llm(text, raw_text, max_retries)`.  `hasClient` models
whether a `GROQ_API_KEY` is configured, `attempts` the outcome of each
successive model call.  `raw_text or text` uses Python truthiness: both
`None` and the empty string fall back to `text`. -/
def extract_with_llm (text : Str) (raw_text : Option Str) (hasClient : Bool)
    (attempts : Nat → Attempt) (max_retries : Nat) : Option Obj :=
  if text = [] ∨ hasClient = false then some defaultRecord
  else
    let raw :=
      match raw_text with
      | some r => if r = [] then text else r
      | none => text
    goAttempts raw attempts max_retries 0

/-! ### `run_ocr_with_timeout`

The OCR engines are external collaborators; one invocation of the
primary engine either returns text, exceeds the time budget, or raises;
the fallback engine returns text or raises.  `future.result(timeout=..)`
re-raises a worker exception, and the source only catches
`concurrent.futures.TimeoutError`, so a primary-engine exception
propagates (`Except.error`). -/

inductive PrimaryOutcome where
  | ok (t : Str)
  | timeout
  | err

inductive FallbackOutcome where
  | ok (t : Str)
  | err

/-- `tesseract_fallback` from `llm_manager.py`: trimmed engine output,
empty string if the engine raises. -/
def tesseract_fallback (fb : FallbackOutcome) : Str :=
  match fb with
  | FallbackOutcome.ok t => pyStrip t
  | FallbackOutcome.err => []

/-- `run_ocr_with_timeout` from `llm_manager.py`. -/
def run_ocr_with_timeout (primary : PrimaryOutcome) (fb : FallbackOutcome) :
    Except Unit Str :=
  match primary with
  | PrimaryOutcome.ok t => Except.ok t
  | PrimaryOutcome.timeout => Except.ok (tesseract_fallback fb)
  | PrimaryOutcome.err => Except.error ()

/-! ### Structure of `PHONE_REGEX` matches

Every match produced by the matcher is an optional `'+'`, a nonempty
digit run, and a list of separator-plus-digit groups; re-running the
matcher on such a string from position 0 consumes it entirely.  This is
what bounds the recursion of `validate_phone` (claim C9). -/

/-- Well-formed `(?:[\s.-]\d+)*` text. -/
inductive IsGroups : Str → Prop
  | nil : IsGroups []
  | cons {c : Char} {r rest : Str} :
      isSep c = true → r ≠ [] → (∀ x ∈ r, x.isDigit = true) →
      IsGroups rest → IsGroups (c :: r ++ rest)

theorem isSep_not_digit {c : Char} (h : isSep c = true) : c.isDigit = false := by
  simp only [isSep, pyIsSpace, Bool.or_eq_true, decide_eq_true_eq] at h
  rcases h with ((((((rfl | rfl) | rfl) | rfl) | rfl) | rfl) | rfl) | rfl <;> decide

theorem isGroups_head_shape {g : Str} (h : IsGroups g) :
    g = [] ∨ ∃ c cs, g = c :: cs ∧ c.isDigit = false := by
  cases h with
  | nil => exact Or.inl rfl
  | cons hsep hne hdig hg =>
    exact Or.inr ⟨_, _, rfl, isSep_not_digit hsep⟩

theorem isGroups_phoneGroupsF : ∀ (fuel : Nat) (s : Str), IsGroups (phoneGroupsF fuel s).1 := by
  intro fuel
  induction fuel with
  | zero =>
    intro s
    rw [phoneGroupsF]
    exact IsGroups.nil
  | succ n ih =>
    intro s
    match s with
    | [] =>
      rw [phoneGroupsF]
      exact IsGroups.nil
    | c :: rest =>
      rw [phoneGroupsF]
      by_cases hsep : isSep c = true
      · simp only [hsep, if_true]
        by_cases h1 : (spanP Char.isDigit rest).1 = []
        · simp only [h1, if_true]
          exact IsGroups.nil
        · simp only [h1, if_false]
          exact IsGroups.cons hsep h1 (fun x hx => spanP_fst_all Char.isDigit rest x hx)
            (ih (spanP Char.isDigit rest).2)
      · simp only [Bool.not_eq_true] at hsep
        simp only [hsep]
        exact IsGroups.nil

theorem isGroups_phoneGroups (s : Str) : IsGroups (phoneGroups s).1 :=
  isGroups_phoneGroupsF s.length s

theorem phoneGroupsF_of_isGroups {g : Str} (h : IsGroups g) :
    ∀ fuel, g.length ≤ fuel → phoneGroupsF fuel g = (g, []) := by
  induction h with
  | nil =>
    intro fuel hf
    cases fuel <;> rfl
  | cons hsep hne hdig hg ih =>
    next c r rest =>
    intro fuel hf
    cases fuel with
    | zero => simp at hf
    | succ f =>
      rw [phoneGroupsF.eq_def]
      have hsp : spanP Char.isDigit (r ++ rest) = (r, rest) := by
        refine spanP_append_eq Char.isDigit r rest hdig ?_
        rcases isGroups_head_shape hg with rfl | ⟨c2, cs, rfl, hc2⟩
        · exact Or.inl rfl
        · exact Or.inr ⟨c2, cs, rfl, hc2⟩
      have hrlen : 1 ≤ r.length := List.length_pos.mpr hne
      have hrest : rest.length ≤ f := by
        simp only [List.length_cons, List.length_append] at hf
        omega
      simp [hsep, hne, ih f hrest, hsp]

theorem phoneGroups_of_isGroups {g : Str} (h : IsGroups g) : phoneGroups g = (g, []) :=
  phoneGroupsF_of_isGroups h g.length le_rfl

/-- The shape of every `PHONE_REGEX` match. -/
def GoodPhone (m : Str) : Prop :=
  ∃ plus run g, (plus = [] ∨ plus = ('+' :: [])) ∧ run ≠ [] ∧
    (∀ x ∈ run, x.isDigit = true) ∧ IsGroups g ∧ m = plus ++ run ++ g

theorem phoneMatchHere_good {prev : Bool} {s m fin : Str}
    (h : phoneMatchHere prev s = some (m, fin)) : GoodPhone m := by
  match s with
  | [] => simp [phoneMatchHere] at h
  | c :: rest =>
    rw [phoneMatchHere] at h
    by_cases hc : c = '+'
    · simp only [hc, if_true] at h
      by_cases h1 : (spanP Char.isDigit rest).1 = []
      · simp [h1] at h
      · simp only [h1, if_false, Option.some.injEq, Prod.mk.injEq] at h
        refine ⟨('+' :: []), (spanP Char.isDigit rest).1,
          (phoneGroups (spanP Char.isDigit rest).2).1, Or.inr rfl, h1,
          fun x hx => spanP_fst_all Char.isDigit rest x hx,
          isGroups_phoneGroups _, ?_⟩
        rw [← h.1]
        simp
    · simp only [hc, if_false] at h
      by_cases h2 : (c.isDigit && !prev) = true
      · simp only [h2, if_true, Option.some.injEq, Prod.mk.injEq] at h
        obtain ⟨hcd, -⟩ : c.isDigit = true ∧ (!prev) = true := by simpa using h2
        have hsp1 : (spanP Char.isDigit (c :: rest)).1 = c :: (spanP Char.isDigit rest).1 := by
          simp [spanP, hcd]
        have hsp2 : (spanP Char.isDigit (c :: rest)).2 = (spanP Char.isDigit rest).2 := by
          simp [spanP, hcd]
        refine ⟨[], (spanP Char.isDigit (c :: rest)).1,
          (phoneGroups ((spanP Char.isDigit (c :: rest)).2)).1, Or.inl rfl, ?_,
          fun x hx => spanP_fst_all Char.isDigit (c :: rest) x hx,
          isGroups_phoneGroups _, ?_⟩
        · rw [hsp1]; simp
        · rw [← h.1]; simp
      · simp only [h2, if_false] at h
        exact absurd h (by simp)

theorem digit_ne_plus {c : Char} (h : c.isDigit = true) : ¬ (c = '+') := by
  intro h2
  subst h2
  exact absurd h (by decide)

/-- Re-matching a `PHONE_REGEX` match at position 0 (start of string, so
no preceding word character) consumes it entirely. -/
theorem phoneMatchHere_of_good {m : Str} (h : GoodPhone m) :
    phoneMatchHere false m = some (m, []) := by
  obtain ⟨plus, run, g, hplus, hrun, hdig, hg, rfl⟩ := h
  have hheadg : g = [] ∨ ∃ c cs, g = c :: cs ∧ c.isDigit = false := isGroups_head_shape hg
  have hsp : spanP Char.isDigit (run ++ g) = (run, g) := by
    refine spanP_append_eq Char.isDigit run g hdig ?_
    rcases hheadg with rfl | ⟨c2, cs, rfl, hc2⟩
    · exact Or.inl rfl
    · exact Or.inr ⟨c2, cs, rfl, hc2⟩
  have hpg : phoneGroups g = (g, []) := phoneGroups_of_isGroups hg
  rcases hplus with rfl | rfl
  · -- no '+': the match starts with a digit
    match run, hrun with
    | d :: ds, _ =>
      have hd : d.isDigit = true := hdig d (List.mem_cons_self d ds)
      have hne : ¬ (d = '+') := digit_ne_plus hd
      show phoneMatchHere false (([] : Str) ++ (d :: ds) ++ g) = _
      simp only [List.nil_append, List.cons_append]
      rw [phoneMatchHere]
      have harg : d :: (ds ++ g) = (d :: ds) ++ g := by simp
      simp only [hne, if_false, hd, Bool.not_false, Bool.and_self, if_true, harg, hsp, hpg]
  · -- leading '+'
    show phoneMatchHere false (('+' :: []) ++ run ++ g) = _
    simp only [List.cons_append, List.nil_append]
    rw [phoneMatchHere]
    simp only [if_pos rfl, hsp]
    match run, hrun with
    | d :: ds, _ =>
      simp only [hpg]
      simp

theorem goodPhone_ne_nil {m : Str} (h : GoodPhone m) : m ≠ [] := by
  obtain ⟨plus, run, g, hplus, hrun, hdig, hg, rfl⟩ := h
  match run, hrun with
  | d :: ds, _ =>
    rcases hplus with rfl | rfl <;> simp

theorem scanWithF_nil (f : Bool → Str → Option (Str × Str)) (n : Nat) (prev : Bool) :
    scanWithF f n prev [] = [] := by
  cases n <;> rw [scanWithF]

/-- First-match lemma: if the matcher consumes the whole input at
position 0, the scan returns exactly that match. -/
theorem scanAllWith_self {f : Bool → Str → Option (Str × Str)} {s : Str}
    (hne : s ≠ []) (h : f false s = some (s, [])) : scanAllWith f s = (s :: []) := by
  match s, hne with
  | c :: rest, _ =>
    show scanWithF f ((c :: rest).length + 1) false (c :: rest) = _
    have hlen : (c :: rest).length + 1 = (rest.length + 1) + 1 := by simp
    rw [hlen, scanWithF, h]
    simp [scanWithF_nil]

theorem phoneSearch_of_good {m : Str} (h : GoodPhone m) : phoneSearch m = some m := by
  rw [phoneSearch, phoneFindall, scanAllWith_self (goodPhone_ne_nil h) (phoneMatchHere_of_good h)]
  rfl

/-- Every string in a scan result comes from a successful matcher call. -/
theorem scanWithF_mem (f : Bool → Str → Option (Str × Str)) :
    ∀ (fuel : Nat) (prev : Bool) (s m : Str), m ∈ scanWithF f fuel prev s →
      ∃ p t fin, f p t = some (m, fin) := by
  intro fuel
  induction fuel with
  | zero => intro prev s m h; rw [scanWithF] at h; simp at h
  | succ n ih =>
    intro prev s m h
    match s with
    | [] => rw [scanWithF] at h; simp at h
    | c :: rest =>
      rw [scanWithF] at h
      rcases hf : f prev (c :: rest) with - | ⟨m0, fin⟩
      · rw [hf] at h
        exact ih _ _ _ h
      · rw [hf] at h
        rcases List.mem_cons.mp h with rfl | h2
        · exact ⟨prev, c :: rest, fin, hf⟩
        · exact ih _ _ _ h2

theorem maxByDigits_mem : ∀ (t : List Str) (h : Str), maxByDigits h t ∈ h :: t := by
  intro t
  induction t with
  | nil => intro h; simp [maxByDigits]
  | cons x xs ih =>
    intro h
    have hstep : maxByDigits h (x :: xs) =
        maxByDigits (if (digitsOf h).length < (digitsOf x).length then x else h) xs := rfl
    rw [hstep]
    rcases List.mem_cons.mp (ih (if (digitsOf h).length < (digitsOf x).length then x else h)) with
      he | ht
    · rw [he]
      split
      · exact List.mem_cons_of_mem h (List.mem_cons_self x xs)
      · exact List.mem_cons_self h (x :: xs)
    · exact List.mem_cons_of_mem h (List.mem_cons_of_mem x ht)

theorem isGroups_chars {g : Str} (h : IsGroups g) :
    ∀ x ∈ g, isSep x = true ∨ x.isDigit = true := by
  induction h with
  | nil => simp
  | cons hsep hne hdig hg ih =>
    intro x hx
    rcases List.mem_cons.mp hx with rfl | hx2
    · exact Or.inl hsep
    · rcases List.mem_append.mp hx2 with hr | hrest
      · exact Or.inr (hdig x hr)
      · exact ih x hrest

theorem isSep_not_paren {c : Char} (h : isSep c = true) : (!(c = '(' || c = ')')) = true := by
  simp only [isSep, pyIsSpace, Bool.or_eq_true, decide_eq_true_eq] at h
  rcases h with ((((((rfl | rfl) | rfl) | rfl) | rfl) | rfl) | rfl) | rfl <;> decide

theorem digit_not_paren {c : Char} (h : c.isDigit = true) : (!(c = '(' || c = ')')) = true := by
  by_cases h1 : c = '('
  · subst h1; exact absurd h (by decide)
  · by_cases h2 : c = ')'
    · subst h2; exact absurd h (by decide)
    · simp [h1, h2]

/-- A `PHONE_REGEX` match never contains a parenthesis, so the
`re.sub(r'[()]', ...)` at the head of the recursive call is a no-op. -/
theorem stripParens_of_good {m : Str} (h : GoodPhone m) : stripParens m = m := by
  rw [stripParens, List.filter_eq_self]
  obtain ⟨plus, run, g, hplus, hrun, hdig, hg, rfl⟩ := h
  intro x hx
  rcases List.mem_append.mp hx with hx2 | hxg
  · rcases List.mem_append.mp hx2 with hxp | hxr
    · rcases hplus with rfl | rfl
      · simp at hxp
      · have : x = '+' := by simpa using hxp
        subst this; decide
    · exact digit_not_paren (hdig x hxr)
  · rcases isGroups_chars hg x hxg with hs | hd
    · exact isSep_not_paren hs
    · exact digit_not_paren hd

theorem phoneFormat_isSome (m : Str) : (phoneFormat m).isSome = true := by
  simp only [phoneFormat]
  by_cases h7 : (digitsOf m).length < 7
  · simp [h7]
  · rcases hD : digitsOf m with - | ⟨d0, ds⟩
    · rw [hD] at h7
      simp at h7
    · rw [hD] at h7
      simp only [hD, if_neg h7]
      by_cases h91 : (d0 :: ds).take 2 = ('9' :: '1' :: [])
      · simp only [h91, if_true]
        repeat' split
        all_goals simp
      · simp only [h91, if_false]
        by_cases h1 : (d0 :: ds).take 1 = ('1' :: [])
        · simp only [h1, if_true]
          repeat' split
          all_goals simp
        · simp only [h1, if_false, List.head?_cons]
          repeat' split
          all_goals simp

theorem validate_phone_go_direct {p m : Str} (r : Str) (fuel : Nat)
    (h : phoneSearch (stripParens p) = some m) :
    validate_phone_go (fuel + 1) p r = phoneFormat m := by
  rw [validate_phone_go]
  simp only [h]

theorem validate_phone_go_none (fuel : Nat) (p r : Str)
    (h : phoneSearch (stripParens p) = none) :
    validate_phone_go (fuel + 1) p r =
      (match (phoneFindall (stripParens r)).filter
          (fun c => decide (7 ≤ (digitsOf c).length)) with
       | [] => some nA
       | v :: vs =>
         match (v :: vs).filter (fun c => c.head? = some '+') with
         | [] => validate_phone_go fuel (maxByDigits v vs) r
         | w :: ws => validate_phone_go fuel (maxByDigits w ws) r) := by
  rw [validate_phone_go]
  simp only [h]

theorem goodPhone_of_findall {q s : Str} (h : q ∈ phoneFindall s) : GoodPhone q := by
  obtain ⟨p, t, fin, hm⟩ := scanWithF_mem phoneMatchHere (s.length + 1) false s q h
  exact phoneMatchHere_good hm

theorem validate_phone_go_one_of_good {q : Str} (raw : Str) (fuel : Nat) (hq : GoodPhone q) :
    validate_phone_go (fuel + 1) q raw = phoneFormat q := by
  have hsq : phoneSearch (stripParens q) = some q := by
    rw [stripParens_of_good hq]
    exact phoneSearch_of_good hq
  exact validate_phone_go_direct raw fuel hsq

/-- The best raw-text candidate selected by the fallback branch is one of
the scanned matches. -/
theorem fallback_pick_good {raw : Str} {v : Str} {vs : List Str} (q : Str)
    (hv : (phoneFindall (stripParens raw)).filter
        (fun c => decide (7 ≤ (digitsOf c).length)) = v :: vs)
    (hqmem : q ∈ v :: vs) : GoodPhone q := by
  have : q ∈ (phoneFindall (stripParens raw)).filter
      (fun c => decide (7 ≤ (digitsOf c).length)) := by
    rw [hv]; exact hqmem
  exact goodPhone_of_findall (List.mem_of_mem_filter this)

theorem validate_phone_go_two_isSome (p r : Str) :
    (validate_phone_go 2 p r).isSome = true := by
  rcases hs : phoneSearch (stripParens p) with - | m
  · rw [validate_phone_go_none 1 p r hs]
    rcases hv : (phoneFindall (stripParens r)).filter
        (fun c => decide (7 ≤ (digitsOf c).length)) with - | ⟨v, vs⟩
    · simp
    · rcases hw : (v :: vs).filter (fun c => c.head? = some '+') with - | ⟨w, ws⟩
      · have hq : GoodPhone (maxByDigits v vs) :=
          fallback_pick_good _ hv (maxByDigits_mem vs v)
        have e : validate_phone_go 1 (maxByDigits v vs) r = phoneFormat (maxByDigits v vs) :=
          validate_phone_go_one_of_good r 0 hq
        simp only [hw, e]
        exact phoneFormat_isSome _
      · have hmem : maxByDigits w ws ∈ v :: vs := by
          have h1 : maxByDigits w ws ∈ w :: ws := maxByDigits_mem ws w
          have h2 : maxByDigits w ws ∈ (v :: vs).filter (fun c => c.head? = some '+') := by
            rw [hw]; exact h1
          exact List.mem_of_mem_filter h2
        have hq : GoodPhone (maxByDigits w ws) := fallback_pick_good _ hv hmem
        have e : validate_phone_go 1 (maxByDigits w ws) r = phoneFormat (maxByDigits w ws) :=
          validate_phone_go_one_of_good r 0 hq
        simp only [hw, e]
        exact phoneFormat_isSome _
  · have he : validate_phone_go 2 p r = phoneFormat m := validate_phone_go_direct r 1 hs
    rw [he]
    exact phoneFormat_isSome m

theorem validate_phone_go_fuel_stable (p r : Str) (n : Nat) :
    validate_phone_go (n + 2) p r = validate_phone_go 2 p r := by
  rcases hs : phoneSearch (stripParens p) with - | m
  · rw [validate_phone_go_none (n + 1) p r hs, validate_phone_go_none 1 p r hs]
    rcases hv : (phoneFindall (stripParens r)).filter
        (fun c => decide (7 ≤ (digitsOf c).length)) with - | ⟨v, vs⟩
    · rfl
    · rcases hw : (v :: vs).filter (fun c => c.head? = some '+') with - | ⟨w, ws⟩
      · have hq : GoodPhone (maxByDigits v vs) :=
          fallback_pick_good _ hv (maxByDigits_mem vs v)
        have e1 : validate_phone_go (n + 1) (maxByDigits v vs) r = phoneFormat (maxByDigits v vs) :=
          validate_phone_go_one_of_good r n hq
        have e2 : validate_phone_go 1 (maxByDigits v vs) r = phoneFormat (maxByDigits v vs) :=
          validate_phone_go_one_of_good r 0 hq
        simp only [hw, e1, e2]
      · have hmem : maxByDigits w ws ∈ v :: vs := by
          have h1 : maxByDigits w ws ∈ w :: ws := maxByDigits_mem ws w
          have h2 : maxByDigits w ws ∈ (v :: vs).filter (fun c => c.head? = some '+') := by
            rw [hw]; exact h1
          exact List.mem_of_mem_filter h2
        have hq : GoodPhone (maxByDigits w ws) := fallback_pick_good _ hv hmem
        have e1 : validate_phone_go (n + 1) (maxByDigits w ws) r = phoneFormat (maxByDigits w ws) :=
          validate_phone_go_one_of_good r n hq
        have e2 : validate_phone_go 1 (maxByDigits w ws) r = phoneFormat (maxByDigits w ws) :=
          validate_phone_go_one_of_good r 0 hq
        simp only [hw, e1, e2]
  · have e1 : validate_phone_go (n + 2) p r = phoneFormat m :=
      validate_phone_go_direct r (n + 1) hs
    have e2 : validate_phone_go 2 p r = phoneFormat m := validate_phone_go_direct r 1 hs
    rw [e1, e2]

/-! ### Totality of the validators (claim C8): no exception paths -/

theorem splitOnChar_ne_nil (sep : Char) : ∀ s : Str, splitOnChar sep s ≠ [] := by
  intro s
  induction s with
  | nil => simp [splitOnChar]
  | cons c rest ih =>
    rw [splitOnChar]
    by_cases hc : c = sep
    · simp [hc]
    · simp only [if_neg hc]
      rcases hr : splitOnChar sep rest with - | ⟨h, t⟩
      · simp
      · simp

theorem splitOnChar_append (sep : Char) (l rest : Str) (hl : sep ∉ l) :
    splitOnChar sep (l ++ sep :: rest) = l :: splitOnChar sep rest := by
  induction l with
  | nil => simp [splitOnChar]
  | cons x xs ih =>
    have hx : ¬ (x = sep) := by
      intro h2
      exact hl (by rw [h2]; exact List.mem_cons_self sep xs)
    have ih2 := ih (fun hmem => hl (List.mem_cons_of_mem x hmem))
    rw [List.cons_append, splitOnChar]
    simp only [if_neg hx, ih2]

/-- Every `EMAIL_REGEX` match splits as local-part, `'@'`, rest, with no
`'@'` in the local part — so `split('@')[1]` never raises. -/
theorem emailMatchHere_shape {prev : Bool} {s m fin : Str}
    (h : emailMatchHere prev s = some (m, fin)) :
    ∃ l t, m = l ++ '@' :: t ∧ ('@' ∉ l) := by
  match s with
  | [] => simp [emailMatchHere] at h
  | c :: rest =>
    rw [emailMatchHere] at h
    split at h
    · dsimp only at h
      split at h
      · simp at h
      · split at h
        · split at h
          · next domtld fin2 heq =>
            refine ⟨(spanP localClass (c :: rest)).1, domtld, ?_, ?_⟩
            · have := h
              simp only [Option.some.injEq, Prod.mk.injEq] at this
              exact this.1.symm
            · intro hmem
              have := spanP_fst_all localClass (c :: rest) '@' hmem
              simp [localClass] at this
          · simp at h
        · simp at h
    · simp at h

theorem validate_name_total (c r : Str) : (validate_name c r).isSome = true := by
  rw [validate_name]
  split <;> simp

theorem validate_description_total (c r : Str) :
    (validate_description c r).isSome = true := by
  rw [validate_description]
  split
  · dsimp only
    split
    · next h2 =>
      have : 1 < (descFindall r).length := h2
      simp [List.getElem?_eq_getElem this]
    · simp
  · simp

theorem validate_email_total (c r : Str) : (validate_email c r).isSome = true := by
  rw [validate_email]
  split
  · simp
  · split <;> simp

theorem validate_company_total (c r : Str) : (validate_company c r).isSome = true := by
  rw [validate_company]
  split
  · rcases hs : emailSearch r with - | m
    · simp
    · simp only [hs]
      have hmem : m ∈ scanAllWith emailMatchHere r := by
        have : (scanAllWith emailMatchHere r).head? = some m := hs
        exact List.mem_of_mem_head? this
      obtain ⟨p, t, fin, hm⟩ :=
        scanWithF_mem emailMatchHere (r.length + 1) false r m hmem
      obtain ⟨l, tl, rfl, hnotat⟩ := emailMatchHere_shape hm
      rw [splitOnChar_append '@' l tl hnotat]
      rcases hsp : splitOnChar '@' tl with - | ⟨h1, t1⟩
      · exact absurd hsp (splitOnChar_ne_nil '@' tl)
      · simp
  · simp

theorem validate_phone_total (c r : Str) : (validate_phone c r).isSome = true :=
  validate_phone_go_two_isSome c r

/-! ### Record-shape lemmas for `extract_with_llm` -/

theorem getKey_setKey_same (o : Obj) (k : Str) (v : JVal) :
    getKey (setKey o k v) k = some v := by
  induction o with
  | nil =>
    rw [setKey, getKey, List.find?_cons_of_pos _ (by simp)]
    rfl
  | cons p t ih =>
    obtain ⟨k2, v2⟩ := p
    rw [setKey]
    by_cases hk : k2 = k
    · subst hk
      rw [if_pos rfl, getKey, List.find?_cons_of_pos _ (by simp)]
      rfl
    · rw [if_neg hk, getKey, List.find?_cons_of_neg _ (by simp [hk])]
      rw [getKey] at ih
      exact ih

theorem getKey_setKey_other (o : Obj) (k k2 : Str) (v : JVal) (h : ¬ (k = k2)) :
    getKey (setKey o k v) k2 = getKey o k2 := by
  induction o with
  | nil =>
    rw [setKey, getKey, List.find?_cons_of_neg _ (by simp [h])]
    rfl
  | cons p t ih =>
    obtain ⟨k3, v3⟩ := p
    rw [setKey]
    by_cases hk : k3 = k
    · subst hk
      have hne : ¬ (k3 = k2) := fun hc => h hc
      rw [if_pos rfl, getKey, getKey, List.find?_cons_of_neg _ (by simp [hne]),
        List.find?_cons_of_neg _ (by simp [hne])]
    · rw [if_neg hk]
      by_cases hk2 : k3 = k2
      · rw [getKey, getKey, List.find?_cons_of_pos _ (by simp [hk2]),
          List.find?_cons_of_pos _ (by simp [hk2])]
      · rw [getKey, getKey, List.find?_cons_of_neg _ (by simp [hk2]),
          List.find?_cons_of_neg _ (by simp [hk2])]
        rw [getKey, getKey] at ih
        exact ih

/-- The five mandatory keys of a `ContactRecord`. -/
def fiveKeys : List Str := [keyName, keyCompany, keyDescription, keyPhone, keyEmail]

/-- Any record produced from a successfully parsed model response binds
each of the five keys to a string. -/
theorem processParsed_keys {o : Obj} {raw : Str} {r : Obj}
    (h : processParsed o raw = some r) :
    ∀ k ∈ fiveKeys, ∃ s, getKey r k = some (JVal.jstr s) := by
  simp only [processParsed, Option.bind_eq_bind, Option.bind_eq_some] at h
  obtain ⟨d0, hd0, s1, hs1, v1, hv1, s2, hs2, v2, hv2, s3, hs3, v3, hv3,
    s4, hs4, v4, hv4, s5, hs5, v5, hv5, hr⟩ := h
  have hr2 : r = setKey (setKey (setKey (setKey (setKey d0 keyName (JVal.jstr v1))
      keyCompany (JVal.jstr v2)) keyDescription (JVal.jstr v3)) keyPhone (JVal.jstr v4))
      keyEmail (JVal.jstr v5) := by
    simpa using hr.symm
  subst hr2
  intro k hk
  simp only [fiveKeys, List.mem_cons, List.not_mem_nil, or_false] at hk
  rcases hk with rfl | rfl | rfl | rfl | rfl
  · refine ⟨v1, ?_⟩
    rw [getKey_setKey_other _ _ _ _ (by decide), getKey_setKey_other _ _ _ _ (by decide),
      getKey_setKey_other _ _ _ _ (by decide), getKey_setKey_other _ _ _ _ (by decide),
      getKey_setKey_same]
  · refine ⟨v2, ?_⟩
    rw [getKey_setKey_other _ _ _ _ (by decide), getKey_setKey_other _ _ _ _ (by decide),
      getKey_setKey_other _ _ _ _ (by decide), getKey_setKey_same]
  · refine ⟨v3, ?_⟩
    rw [getKey_setKey_other _ _ _ _ (by decide), getKey_setKey_other _ _ _ _ (by decide),
      getKey_setKey_same]
  · refine ⟨v4, ?_⟩
    rw [getKey_setKey_other _ _ _ _ (by decide), getKey_setKey_same]
  · exact ⟨v5, getKey_setKey_same _ _ _⟩

/-- The regex-only fallback record always exists (the validators never
raise) and binds the five keys to strings. -/
theorem fallbackRecord_spec (raw : Str) :
    ∃ n c d p e, fallbackRecord raw =
      some [(keyName, JVal.jstr n), (keyCompany, JVal.jstr c),
            (keyDescription, JVal.jstr d), (keyPhone, JVal.jstr p),
            (keyEmail, JVal.jstr e)] := by
  obtain ⟨n, hn⟩ := Option.isSome_iff_exists.mp (validate_name_total nA raw)
  obtain ⟨c, hc⟩ := Option.isSome_iff_exists.mp (validate_company_total nA raw)
  obtain ⟨d, hd⟩ := Option.isSome_iff_exists.mp (validate_description_total nA raw)
  obtain ⟨p, hp⟩ := Option.isSome_iff_exists.mp (validate_phone_total nA raw)
  obtain ⟨e, he⟩ := Option.isSome_iff_exists.mp (validate_email_total nA raw)
  refine ⟨n, c, d, p, e, ?_⟩
  rw [fallbackRecord]
  rw [hn, hc, hd, hp, he]
  rfl

theorem fallbackRecord_keys {raw : Str} {r : Obj} (h : fallbackRecord raw = some r) :
    ∀ k ∈ fiveKeys, ∃ s, getKey r k = some (JVal.jstr s) := by
  obtain ⟨n, c, d, p, e, hspec⟩ := fallbackRecord_spec raw
  rw [hspec] at h
  obtain rfl : _ = r := Option.some.inj h
  intro k hk
  simp only [fiveKeys, List.mem_cons, List.not_mem_nil, or_false] at hk
  rcases hk with rfl | rfl | rfl | rfl | rfl
  · exact ⟨n, by rw [getKey]; rfl⟩
  · exact ⟨c, by rw [getKey]; rfl⟩
  · exact ⟨d, by rw [getKey]; rfl⟩
  · exact ⟨p, by rw [getKey]; rfl⟩
  · exact ⟨e, by rw [getKey]; rfl⟩

theorem goAttempts_spec (raw : Str) (attempts : Nat → Attempt) :
    ∀ (n i : Nat), ∃ r, goAttempts raw attempts n i = some r ∧
      ∀ k ∈ fiveKeys, ∃ s, getKey r k = some (JVal.jstr s) := by
  intro n
  induction n with
  | zero =>
    intro i
    obtain ⟨nn, c, d, p, e, hspec⟩ := fallbackRecord_spec raw
    refine ⟨_, ?_, fallbackRecord_keys hspec⟩
    rw [goAttempts]
    exact hspec
  | succ n ih =>
    intro i
    rw [goAttempts]
    rcases ha : attemptResult (attempts i) raw with - | r
    · exact ih (i + 1)
    · refine ⟨r, rfl, ?_⟩
      rcases hat : attempts i with - | - | o
      · rw [hat] at ha; simp [attemptResult] at ha
      · rw [hat] at ha; simp [attemptResult] at ha
      · rw [hat] at ha
        exact processParsed_keys ha

theorem defaultRecord_keys :
    ∀ k ∈ fiveKeys, ∃ s, getKey defaultRecord k = some (JVal.jstr s) := by
  intro k hk
  simp only [fiveKeys, List.mem_cons, List.not_mem_nil, or_false] at hk
  rcases hk with rfl | rfl | rfl | rfl | rfl
  · exact ⟨nA, by rw [getKey]; rfl⟩
  · exact ⟨nA, by rw [getKey]; rfl⟩
  · exact ⟨nA, by rw [getKey]; rfl⟩
  · exact ⟨nA, by rw [getKey]; rfl⟩
  · exact ⟨nA, by rw [getKey]; rfl⟩

/-! ### Claim theorems -/

/-- C8: for every pair of string arguments, none of the five field
validators raises an exception (every validator returns a value on all
inputs; internal failure paths degrade to `"N/A"` or to the candidate). -/
theorem claim_C8_validators_never_raise :
    ∀ candidate raw_text : Str,
      (validate_name candidate raw_text).isSome = true ∧
      (validate_company candidate raw_text).isSome = true ∧
      (validate_description candidate raw_text).isSome = true ∧
      (validate_phone candidate raw_text).isSome = true ∧
      (validate_email candidate raw_text).isSome = true :=
  fun c r =>
    ⟨validate_name_total c r, validate_company_total c r,
     validate_description_total c r, validate_phone_total c r,
     validate_email_total c r⟩

/-- C9: `validate_phone` terminates on every pair of string inputs: a
recursion budget of 2 (the initial call plus at most one self-recursive
call) is never exhausted, and any larger budget computes the same
result — the candidate selected from `raw_text` is itself a
`PHONE_REGEX` match with at least 7 digits, so the recursive invocation
returns from the direct-match branch without recursing further. -/
theorem claim_C9_phone_recursion_bounded :
    ∀ phone raw_text : Str,
      (validate_phone_go 2 phone raw_text).isSome = true ∧
      ∀ n : Nat,
        validate_phone_go (n + 2) phone raw_text = validate_phone_go 2 phone raw_text :=
  fun p r =>
    ⟨validate_phone_go_two_isSome p r, fun n => validate_phone_go_fuel_stable p r n⟩

/-- C10: if the candidate contains a phone-shaped (`PHONE_REGEX`) match
with fewer than 7 digits, `validate_phone` returns `"N/A"` immediately
for every raw text; more generally, whenever the candidate contains any
phone-shaped match, the result never depends on `raw_text` (the raw-text
fallback search runs only when the candidate has no match at all). -/
theorem claim_C10_short_candidate_ignores_raw :
    ∀ (candidate m : Str), phoneSearch (stripParens candidate) = some m →
      ((digitsOf m).length < 7 →
        ∀ raw_text : Str, validate_phone candidate raw_text = some nA) ∧
      (∀ raw1 raw2 : Str,
        validate_phone candidate raw1 = validate_phone candidate raw2) := by
  intro cand m h
  constructor
  · intro h7 raw
    have e : validate_phone_go 2 cand raw = phoneFormat m := validate_phone_go_direct raw 1 h
    refine Eq.trans e ?_
    simp [phoneFormat, h7]
  · intro r1 r2
    have e1 : validate_phone_go 2 cand r1 = phoneFormat m := validate_phone_go_direct r1 1 h
    have e2 : validate_phone_go 2 cand r2 = phoneFormat m := validate_phone_go_direct r2 1 h
    exact Eq.trans e1 e2.symm

theorem claim_C10_witness :
    phoneSearch (stripParens ("12 345".toList)) = some ("12 345".toList) ∧
    validate_phone ("12 345".toList) ("+9876543210".toList) = some nA := by
  refine ⟨by decide, ?_⟩
  exact (claim_C10_short_candidate_ignores_raw ("12 345".toList) ("12 345".toList)
    (by decide)).1 (by decide) ("+9876543210".toList)

/-- C6: `validate_phone` on a candidate containing `"+1-415-555-2671"`
returns it unchanged (for every raw text); for any candidate whose
phone-shaped match has digit string of length 12 starting `"91"`, the
result is `"+91 "` followed by the remaining ten digits grouped 2-4-4;
and the raw text `"+91 99090 48406"` (with candidate `"N/A"`) yields
`"+91 99 0904 8406"`. -/
theorem claim_C6_phone_formatting :
    (∀ raw_text : Str,
      validate_phone ("+1-415-555-2671".toList) raw_text =
        some ("+1-415-555-2671".toList)) ∧
    (∀ (candidate raw_text m : Str),
      phoneSearch (stripParens candidate) = some m →
      (digitsOf m).length = 12 →
      (digitsOf m).take 2 = ('9' :: '1' :: []) →
      validate_phone candidate raw_text =
        some (('+' :: '9' :: '1' :: ' ' :: []) ++ ((digitsOf m).drop 2).take 2
          ++ (' ' :: []) ++ (((digitsOf m).drop 2).drop 2).take 4 ++ (' ' :: [])
          ++ ((digitsOf m).drop 2).drop 6)) ∧
    validate_phone nA ("+91 99090 48406".toList) = some ("+91 99 0904 8406".toList) := by
  refine ⟨?_, ?_, by decide⟩
  · intro raw
    have h : phoneSearch (stripParens ("+1-415-555-2671".toList)) =
        some ("+1-415-555-2671".toList) := by decide
    exact Eq.trans (validate_phone_go_direct raw 1 h) (by decide)
  · intro cand raw m h h12 h91
    have e : validate_phone_go 2 cand raw = phoneFormat m := validate_phone_go_direct raw 1 h
    refine Eq.trans e ?_
    have h7 : ¬ ((digitsOf m).length < 7) := by omega
    have hlen : ((digitsOf m).drop 2).length = 10 := by
      rw [List.length_drop, h12]
    simp only [phoneFormat, if_neg h7, h91, eq_self_iff_true, if_true]
    simp [hlen]

theorem claim_C6_witness :
    phoneSearch (stripParens ("+919909048406".toList)) = some ("+919909048406".toList) ∧
    validate_phone ("+919909048406".toList) [] = some ("+91 99 0904 8406".toList) := by
  refine ⟨by decide, ?_⟩
  have h := claim_C6_phone_formatting.2.1 ("+919909048406".toList) []
    ("+919909048406".toList) (by decide) (by decide) (by decide)
  rw [h]
  decide

/-- C5: with candidate `"N/A"` and a raw text containing the two
capitalized phrases `"John Carter"` then `"Vice President Sales"`
(separated so that the greedy pattern does not merge them),
`validate_description` returns the second phrase `"Vice President
Sales"`; with fewer than two phrases it returns `"N/A"`. -/
theorem claim_C5_description_second_phrase :
    validate_description nA ("John Carter, Vice President Sales".toList) =
      some ("Vice President Sales".toList) ∧
    validate_description nA ("John Carter".toList) = some nA :=
  ⟨by decide, by decide⟩

/-- C7: with candidate `"N/A"` and raw text `"contact: jane@simpel.ai"`
(an email address and no company phrase), `validate_company` returns
`"Simpel Ai"`: the email domain with dots replaced by spaces, title
cased. -/
theorem claim_C7_company_from_email_domain :
    validate_company nA ("contact: jane@simpel.ai".toList) = some ("Simpel Ai".toList) := by
  decide

/-- C3: if the input text is empty or no language-model credential is
configured, `extract_with_llm` returns the record with all five fields
set to `"N/A"`. -/
theorem claim_C3_empty_or_no_client :
    ∀ (text : Str) (raw_text : Option Str) (hasClient : Bool)
      (attempts : Nat → Attempt) (max_retries : Nat),
      text = [] ∨ hasClient = false →
      extract_with_llm text raw_text hasClient attempts max_retries = some defaultRecord := by
  intro text raw hc attempts n h
  rw [extract_with_llm.eq_def, if_pos h]

theorem claim_C3_witness :
    extract_with_llm [] none false (fun _ => Attempt.transportError) 3 = some defaultRecord :=
  claim_C3_empty_or_no_client [] none false (fun _ => Attempt.transportError) 3 (Or.inl rfl)

theorem goAttempts_all_fail (raw : Str) (attempts : Nat → Attempt) :
    ∀ (n i : Nat), (∀ j, j < n → attemptResult (attempts (i + j)) raw = none) →
      goAttempts raw attempts n i = fallbackRecord raw := by
  intro n
  induction n with
  | zero => intro i h; rw [goAttempts]
  | succ n ih =>
    intro i h
    rw [goAttempts]
    have h0 : attemptResult (attempts i) raw = none := by
      have := h 0 (Nat.succ_pos n)
      simpa using this
    rw [h0]
    refine ih (i + 1) (fun j hj => ?_)
    have := h (j + 1) (by omega)
    rw [show i + (j + 1) = i + 1 + j by omega] at this
    exact this

/-- C2: with non-empty text and raw text, if every one of the
`max_retries` attempts fails (transport error, unparseable response, or
a parsed response whose processing raises), `extract_with_llm` returns
exactly the record obtained by calling each of the five validators with
candidate `"N/A"` and the original raw text. -/
theorem claim_C2_retry_exhaustion_fallback :
    ∀ (text raw : Str) (attempts : Nat → Attempt) (max_retries : Nat),
      text ≠ [] → raw ≠ [] →
      (∀ j, j < max_retries → attemptResult (attempts j) raw = none) →
      extract_with_llm text (some raw) true attempts max_retries = fallbackRecord raw := by
  intro text raw attempts n htext hraw hfail
  rw [extract_with_llm.eq_def, if_neg (by simp [htext])]
  simp only [if_neg hraw]
  exact goAttempts_all_fail raw attempts n 0
    (fun j hj => by rw [Nat.zero_add]; exact hfail j hj)

theorem claim_C2_witness :
    extract_with_llm ("x".toList) (some ("y".toList)) true
      (fun _ => Attempt.transportError) 3 = fallbackRecord ("y".toList) :=
  claim_C2_retry_exhaustion_fallback ("x".toList) ("y".toList)
    (fun _ => Attempt.transportError) 3 (by decide) (by decide) (fun j hj => rfl)

/-- C1 (counterexample): a well-formed model response carrying an extra
string key beyond the five is returned with six keys, so the result is
not a mapping with exactly the five keys. -/
theorem claim_C1_counterexample :
    extract_with_llm ("x".toList) (some ("x".toList)) true
      (fun _ => Attempt.parsed
        [(keyName, JVal.jstr nA), (keyCompany, JVal.jstr nA),
         (keyDescription, JVal.jstr nA), (keyPhone, JVal.jstr nA),
         (keyEmail, JVal.jstr nA), (("extra".toList), JVal.jstr ("hi".toList))]) 3 =
      some
        [(keyName, JVal.jstr nA), (keyCompany, JVal.jstr nA),
         (keyDescription, JVal.jstr nA), (keyPhone, JVal.jstr nA),
         (keyEmail, JVal.jstr nA), (("extra".toList), JVal.jstr ("hi".toList))] ∧
    ("extra".toList) ∉ fiveKeys :=
  ⟨by decide, by decide⟩

/-- C1 (amended): for every input and every model behaviour,
`extract_with_llm` returns a record that binds each of the five keys
`name`, `company`, `description`, `phone`, `email` to a string — no
mandatory key is ever absent or null — though extra keys from a
well-formed model response are carried through. -/
theorem claim_C1_five_keys_always_strings :
    ∀ (text : Str) (raw_text : Option Str) (hasClient : Bool)
      (attempts : Nat → Attempt) (max_retries : Nat),
      ∃ r, extract_with_llm text raw_text hasClient attempts max_retries = some r ∧
        ∀ k ∈ fiveKeys, ∃ s, getKey r k = some (JVal.jstr s) := by
  intro text raw hc attempts n
  rw [extract_with_llm.eq_def]
  split
  · exact ⟨defaultRecord, rfl, defaultRecord_keys⟩
  · exact goAttempts_spec _ attempts n 0

theorem claim_C1_witness :
    ∃ r, extract_with_llm ("x".toList) none true (fun _ => Attempt.unparseable) 3 = some r ∧
      ∃ s, getKey r keyName = some (JVal.jstr s) := by
  obtain ⟨r, hr, hk⟩ :=
    claim_C1_five_keys_always_strings ("x".toList) none true (fun _ => Attempt.unparseable) 3
  obtain ⟨s, hs⟩ := hk keyName (by decide)
  exact ⟨r, hr, s, hs⟩

/-- C4 (counterexample): when the primary OCR engine raises a
non-timeout exception, `run_ocr_with_timeout` propagates it to the
caller (only `TimeoutError` is caught), so the function does not
degrade every backend failure to an empty string. -/
theorem claim_C4_counterexample :
    run_ocr_with_timeout PrimaryOutcome.err (FallbackOutcome.ok []) = Except.error () := rfl

/-- C4 (amended): on primary success the primary text is returned; on
primary timeout the fallback engine's trimmed output is returned, and a
fallback failure degrades to the empty string — but a primary-engine
exception other than a timeout propagates to the caller. -/
theorem claim_C4_timeout_fallback :
    ∀ (t : Str) (fb : FallbackOutcome),
      run_ocr_with_timeout (PrimaryOutcome.ok t) fb = Except.ok t ∧
      run_ocr_with_timeout PrimaryOutcome.timeout fb = Except.ok (tesseract_fallback fb) ∧
      tesseract_fallback (FallbackOutcome.ok t) = pyStrip t ∧
      tesseract_fallback FallbackOutcome.err = [] :=
  fun t fb => ⟨rfl, rfl, rfl, rfl⟩
